import Mathlib

/-!
# Verification of the MovieRecommenderSystem core

Shallow embedding of the repository's prediction engine:

* `movie_lens.py` — the `MovieLens` rating store, similarity metrics
  (`euclidean_distance`, `pearson_correlation`), neighbor ranking
  (`similar_critics`, `similar_items`), neighbor-based prediction
  (`predict_ranking_user_based`, `predict_ranking_item_based`) and the
  ranking aggregates (`average_reviews`, `bayesian_average`).
* `svd.py` — the gradient-descent matrix factorization `factor`.
* `recommender.py` — the dense-matrix `Recommender` (`predict_ranking`,
  `top_rated`).

Modelling conventions:

* Python `int`/`float` rating arithmetic is embedded in `ℚ`; the metric
  values, which pass through `math.sqrt`, live in `ℝ`.
* Python dicts become association lists (`List (key × value)`); dict
  insertion order is the list order, and `dict.__getitem__` on a
  `defaultdict(dict)` is `ddGet`, which *appends* a fresh empty entry when
  the key is missing — exactly CPython's auto-vivification.
* A Python `raise` becomes `Except.error` carrying a `PyErr`; the
  constructors record which exception class the interpreter raises.
* Sums accumulated by Python `for` loops are embedded as `List.sum` over
  the identically-ordered list.
-/

/-- The Python exception classes the embedded code can raise, plus the
`NoRatings` failure the specification's redesigned contract asks for
(which the source never raises; it is needed to *state* claims that
distinguish it from `ZeroDivisionError`). -/
inductive PyErr where
  | keyError : PyErr
  | zeroDivisionError : PyErr
  | typeError : PyErr
  | noRatings : PyErr
  deriving DecidableEq, Repr

/-! ## Association lists (Python `dict`) -/

/-- Lookup in an association list: the value of the *first* entry with the
given key, like a Python dict (whose keys are unique). -/
def alookup {α β : Type} [DecidableEq α] : List (α × β) → α → Option β
  | [], _ => none
  | p :: l, a => if p.1 = a then some p.2 else alookup l a

/-- The key list of an association list (Python `dict` iteration order). -/
def akeys {α β : Type} (l : List (α × β)) : List α := l.map Prod.fst

theorem alookup_isSome_iff {α β : Type} [DecidableEq α] (l : List (α × β)) (a : α) :
    (alookup l a).isSome ↔ a ∈ akeys l := by
  induction l with
  | nil => simp [alookup, akeys]
  | cons p l ih =>
    by_cases h : p.1 = a
    · simp [alookup, akeys, h]
    · have h' : ¬ a = p.1 := fun he => h he.symm
      simpa [alookup, akeys, h, h'] using ih

theorem alookup_eq_none_iff {α β : Type} [DecidableEq α] (l : List (α × β)) (a : α) :
    alookup l a = none ↔ a ∉ akeys l := by
  rw [← alookup_isSome_iff]
  cases alookup l a <;> simp

/-- In a dict with distinct keys, membership of an entry determines the
lookup result. -/
theorem alookup_of_mem_of_nodup {α β : Type} [DecidableEq α] {l : List (α × β)}
    (hn : (akeys l).Nodup) {p : α × β} (hp : p ∈ l) : alookup l p.1 = some p.2 := by
  induction l with
  | nil => simp at hp
  | cons q l ih =>
    simp only [akeys, List.map_cons, List.nodup_cons] at hn
    rcases List.mem_cons.mp hp with h | h
    · subst h; simp [alookup]
    · have hne : q.1 ≠ p.1 := by
        intro he
        exact hn.1 (he ▸ (List.mem_map.mpr ⟨p, h, rfl⟩))
      simp [alookup, hne]
      exact ih hn.2 h

theorem alookup_mem {α β : Type} [DecidableEq α] {a : α} {b : β} :
    ∀ {l : List (α × β)}, alookup l a = some b → (a, b) ∈ l
  | (k, v) :: l, h => by
    by_cases hq : k = a
    · have hv : v = b := by simpa [alookup, hq] using h
      subst hq; subst hv
      exact List.mem_cons_self _ _
    · exact List.mem_cons_of_mem _ (alookup_mem (by simpa [alookup, hq] using h))

/-! ## The rating store (`MovieLens.__init__` / `load_dataset`)

`self.movies` is a dict `movie_id → metadata`; the core only ever uses its
key set, so we keep the key list.  `self.reviews` is a
`defaultdict(dict)` mapping `user_id → (movie_id → review)`; the core only
reads `review['rating']`, so the inner dict maps `movie_id → rating`. -/

/-- One user's review dict: `movie_id → rating`. -/
abbrev RMap := List (ℕ × ℚ)

/-- The `self.reviews` index: `user_id → (movie_id → rating)`. -/
abbrev Reviews := List (ℕ × RMap)

/-- The post-construction `MovieLens` state. -/
structure Store where
  movies : List ℕ
  reviews : Reviews
  deriving DecidableEq, Repr

/-- Well-formedness that Python dicts guarantee intrinsically: keys are
distinct at both levels, and the movie index has distinct keys. -/
def Store.WF (st : Store) : Prop :=
  (akeys st.reviews).Nodup ∧ (∀ p ∈ st.reviews, (akeys p.2).Nodup) ∧ st.movies.Nodup

instance (st : Store) : Decidable st.WF := by
  unfold Store.WF
  infer_instance

/-! ## RankingAggregator (`reviews_for_movie`, `average_reviews`,
`bayesian_average`) -/

/-- `reviews_for_movie(movie_id)`: the ratings of one movie, in user
(dict) order — `[review[movie_id]['rating'] for review in reviews.values()
if movie_id in review]`. -/
def ratingsFor (st : Store) (movie : ℕ) : List ℚ :=
  st.reviews.filterMap (fun p => alookup p.2 movie)

/-- The body of `average_reviews` for a single movie:
`sum(reviews) / float(len(reviews))` together with the count.  CPython
raises `ZeroDivisionError` when the movie has no reviews; the quotient is
otherwise exact rational arithmetic. -/
def averageRating (st : Store) (movie : ℕ) : Except PyErr (ℚ × ℕ) :=
  let rs := ratingsFor st movie
  if rs.length = 0 then .error .zeroDivisionError
  else .ok (rs.sum / (rs.length : ℚ), rs.length)

/-- The body of `bayesian_average` for a single movie:
`((c * m) + sum(reviews)) / float(c + len(reviews))`; CPython raises
`ZeroDivisionError` when the denominator is zero. -/
def bayesianAverage (st : Store) (c m : ℚ) (movie : ℕ) : Except PyErr ℚ :=
  let rs := ratingsFor st movie
  if (c + (rs.length : ℚ)) = 0 then .error .zeroDivisionError
  else .ok ((c * m + rs.sum) / (c + (rs.length : ℚ)))

/-! ## LatentFactorModel (`svd.py`)

`factor` mutates `P` (N×K) and the transposed `Q` (K×M) in place; we pass
the pair through folds.  All arithmetic is exact (`ℚ`); the Python floats
obey the same expressions.  `initialize` draws `P`, `Q` pseudo-randomly
and is external to every claim, so `factor` takes them as arguments. -/

namespace Svd

variable {n m K : ℕ}

/-- The state of the factorization: `P` (indexed `i, k`) and the
transposed `Q` (indexed `k, j`), as in the source after `Q = Q.T`. -/
abbrev PQ (n m K : ℕ) := (Fin n → Fin K → ℚ) × (Fin K → Fin m → ℚ)

/-- Point update of a curried matrix. -/
def upd2 {α β : Type} [DecidableEq α] [DecidableEq β] (f : α → β → ℚ) (a : α) (b : β)
    (v : ℚ) : α → β → ℚ :=
  fun x y => if x = a ∧ y = b then v else f x y

/-- `np.dot(P[i, :], Q[:, j])`. -/
def dotPQ (pq : PQ n m K) (i : Fin n) (j : Fin m) : ℚ :=
  ∑ k : Fin K, pq.1 i k * pq.2 k j

/-- One iteration of the inner `for k in range(K)` loop:
`P[i,k] = P[i,k] + alpha * (2*eij*Q[k,j] - beta*P[i,k])` followed by
`Q[k,j] = Q[k,j] + alpha * (2*eij*P[i,k] - beta*Q[k,j])`, where the second
line reads the *already updated* `P[i,k]`. -/
def kStep (alpha beta e : ℚ) (i : Fin n) (j : Fin m) (pq : PQ n m K) (k : Fin K) :
    PQ n m K :=
  let pik := pq.1 i k + alpha * (2 * e * pq.2 k j - beta * pq.1 i k)
  let P' := upd2 pq.1 i k pik
  let qkj := pq.2 k j + alpha * (2 * e * pik - beta * pq.2 k j)
  (P', upd2 pq.2 k j qkj)

/-- The body of the `for j` loop: `if R[i, j] > 0:` compute
`eij = R[i,j] - np.dot(P[i,:], Q[:,j])` once, then run the `k` loop. -/
def cellStep (R : Fin n → Fin m → ℚ) (alpha beta : ℚ) (pq : PQ n m K)
    (c : Fin n × Fin m) : PQ n m K :=
  if 0 < R c.1 c.2 then
    let e := R c.1 c.2 - dotPQ pq c.1 c.2
    (List.finRange K).foldl (kStep alpha beta e c.1 c.2) pq
  else pq

/-- The update sweep of one `step`: the nested row-major
`for i in range(rows): for j in range(cols)` loops. -/
def sweep (R : Fin n → Fin m → ℚ) (alpha beta : ℚ) (pq : PQ n m K) : PQ n m K :=
  (List.finRange n).foldl
    (fun pq i => (List.finRange m).foldl (fun pq j => cellStep R alpha beta pq (i, j)) pq)
    pq

/-- The contribution of one nonzero cell to the convergence error `e`:
`pow(R[i,j] - np.dot(P[i,:], Q[:,j]), 2)` plus, for each `k`,
`(beta/2) * (pow(P[i,k], 2) + pow(Q[k,j], 2))`. -/
def cellErr (R : Fin n → Fin m → ℚ) (beta : ℚ) (pq : PQ n m K) (c : Fin n × Fin m) : ℚ :=
  (R c.1 c.2 - dotPQ pq c.1 c.2) ^ 2
    + ∑ k : Fin K, (beta / 2) * ((pq.1 c.1 k) ^ 2 + (pq.2 k c.2) ^ 2)

/-- The error accumulation loop after a sweep: the same nested `for i`,
`for j` loops guarded by `if R[i, j] > 0`, accumulated into `e`
(accumulation order is irrelevant in `ℚ`). -/
def errAfter (R : Fin n → Fin m → ℚ) (beta : ℚ) (pq : PQ n m K) : ℚ :=
  ((List.finRange n).map (fun i =>
    ((List.finRange m).map (fun j =>
      if 0 < R i j then cellErr R beta pq (i, j) else 0)).sum)).sum

/-- The `for step in range(steps)` loop of `factor`: sweep, recompute the
error, `break` as soon as `e < 0.001`. -/
def factorLoop (R : Fin n → Fin m → ℚ) (alpha beta : ℚ) : ℕ → PQ n m K → PQ n m K
  | 0, pq => pq
  | steps + 1, pq =>
    let pq' := sweep R alpha beta pq
    if errAfter R beta pq' < 1 / 1000 then pq' else factorLoop R alpha beta steps pq'

/-- `factor(R, P, Q, K, steps, alpha, beta)`: transposes `Q`, runs the
step loop, and returns `P, Q.T`. -/
def factor (R : Fin n → Fin m → ℚ) (P : Fin n → Fin K → ℚ) (Q : Fin m → Fin K → ℚ)
    (steps : ℕ) (alpha beta : ℚ) : (Fin n → Fin K → ℚ) × (Fin m → Fin K → ℚ) :=
  let pq := factorLoop R alpha beta steps (P, fun k j => Q j k)
  (pq.1, fun j k => pq.2 k j)

/-! ### The claim's description of the algorithm, written from its words:
a row-major list of exactly the cells with `R[i,j] > 0`, swept
sequentially; per cell the error is computed once and each latent
dimension updates `P[i,k]` then `Q[k,j]` from the updated `P[i,k]`; after
the sweep, the regularized squared error over the same nonzero cells
decides early termination below 0.001. -/

/-- The row-major enumeration of exactly the cells with `R[i,j] > 0`. -/
def nonzeroCells (R : Fin n → Fin m → ℚ) : List (Fin n × Fin m) :=
  ((List.finRange n).flatMap (fun i => (List.finRange m).map (Prod.mk i))).filter
    (fun c => 0 < R c.1 c.2)

/-- Per-cell update of the claim: compute `e` once, then the sequential
in-sweep `k` updates (`Q[k,j]` reads the already-updated `P[i,k]`). -/
def cellStepSpec (R : Fin n → Fin m → ℚ) (alpha beta : ℚ) (pq : PQ n m K)
    (c : Fin n × Fin m) : PQ n m K :=
  let e := R c.1 c.2 - dotPQ pq c.1 c.2
  (List.finRange K).foldl (kStep alpha beta e c.1 c.2) pq

/-- The claim's training loop: in each step sweep the nonzero cells in
row-major order, then compute the regularized squared error over the same
nonzero cells and return as soon as it is below 0.001, otherwise continue
until `steps` sweeps have run. -/
def factorLoopSpec (R : Fin n → Fin m → ℚ) (alpha beta : ℚ) : ℕ → PQ n m K → PQ n m K
  | 0, pq => pq
  | steps + 1, pq =>
    let pq' := (nonzeroCells R).foldl (cellStepSpec R alpha beta) pq
    let err := ((nonzeroCells R).map (cellErr R beta pq')).sum
    if err < 1 / 1000 then pq' else factorLoopSpec R alpha beta steps pq'

/-- The claim's reading of `factor` as a whole. -/
def factorSpec (R : Fin n → Fin m → ℚ) (P : Fin n → Fin K → ℚ) (Q : Fin m → Fin K → ℚ)
    (steps : ℕ) (alpha beta : ℚ) : (Fin n → Fin K → ℚ) × (Fin m → Fin K → ℚ) :=
  let pq := factorLoopSpec R alpha beta steps (P, fun k j => Q j k)
  (pq.1, fun j k => pq.2 k j)

/-- A guarded fold over a list is the fold of the filtered list. -/
theorem foldl_filter {α β : Type} (p : β → Bool) (g : α → β → α) :
    ∀ (l : List β) (a : α),
      (l.filter p).foldl g a = l.foldl (fun a b => if p b then g a b else a) a
  | [], a => rfl
  | b :: l, a => by
    by_cases h : p b <;> simp [List.filter, h, foldl_filter p g l]

/-- Folding a flatMap of per-row lists is the nested row/column fold. -/
theorem foldl_flatMap {α β γ : Type} (f : β → List γ) (g : α → γ → α) :
    ∀ (l : List β) (a : α),
      (l.flatMap f).foldl g a = l.foldl (fun a b => (f b).foldl g a) a
  | [], a => rfl
  | b :: l, a => by
    simp [List.flatMap_cons, List.foldl_append, foldl_flatMap f g l]

/-- Summing `f` over a filtered list is summing the guarded `f`. -/
theorem sum_map_filter {γ : Type} (p : γ → Bool) (f : γ → ℚ) :
    ∀ l : List γ, ((l.filter p).map f).sum = (l.map (fun c => if p c then f c else 0)).sum
  | [] => rfl
  | c :: l => by
    by_cases h : p c <;> simp [List.filter, h, sum_map_filter p f l]

/-- Summing over a flatMap is the nested sum. -/
theorem sum_map_flatMap {β γ : Type} (g : β → List γ) (f : γ → ℚ) :
    ∀ l : List β, ((l.flatMap g).map f).sum = (l.map (fun b => ((g b).map f).sum)).sum
  | [] => rfl
  | b :: l => by
    simp [List.flatMap_cons, sum_map_flatMap g f l]

theorem sweep_eq_spec (R : Fin n → Fin m → ℚ) (alpha beta : ℚ) (pq : PQ n m K) :
    (nonzeroCells R).foldl (cellStepSpec R alpha beta) pq = sweep R alpha beta pq := by
  unfold nonzeroCells sweep
  rw [foldl_filter, foldl_flatMap]
  apply List.foldl_ext
  intro a i _
  rw [List.foldl_map]
  apply List.foldl_ext
  intro b j _
  by_cases h : 0 < R i j <;> simp [cellStep, cellStepSpec, h]

theorem err_eq_spec (R : Fin n → Fin m → ℚ) (beta : ℚ) (pq : PQ n m K) :
    ((nonzeroCells R).map (cellErr R beta pq)).sum = errAfter R beta pq := by
  unfold nonzeroCells errAfter
  rw [sum_map_filter, sum_map_flatMap]
  congr 1
  apply List.map_congr_left
  intro i _
  rw [List.map_map]
  congr 1
  apply List.map_congr_left
  intro j _
  by_cases h : 0 < R i j <;> simp [h]

theorem factorLoop_eq_spec (R : Fin n → Fin m → ℚ) (alpha beta : ℚ) :
    ∀ (steps : ℕ) (pq : PQ n m K),
      factorLoopSpec R alpha beta steps pq = factorLoop R alpha beta steps pq
  | 0, _ => rfl
  | steps + 1, pq => by
    rw [factorLoopSpec, factorLoop, sweep_eq_spec, err_eq_spec]
    by_cases h : errAfter R beta (sweep R alpha beta pq) < 1 / 1000 <;>
      simp [h, factorLoop_eq_spec R alpha beta steps]

end Svd

/-- **C1.** `factor(R, ...)` performs in each step a row-major sweep over
exactly the cells with `R[i,j] > 0`; for each such cell it computes
`e = R[i,j] - dot(P[i,:], Q[:,j])` once and then, for `k = 0..K-1`,
updates `P[i,k]` by `alpha*(2*e*Q[k,j] - beta*P[i,k])` and then `Q[k,j]`
by `alpha*(2*e*P[i,k] - beta*Q[k,j])` using the already-updated `P[i,k]`
(sequential in-sweep updates); after the sweep it computes the regularized
squared error over the same nonzero cells and returns `(P, Q)` as soon as
that error is below `0.001`, otherwise after `steps` sweeps: the source
embedding `Svd.factor` coincides with `Svd.factorSpec`, which is written
from the claim's wording. -/
theorem claim_C1_factor_follows_spec {n m K : ℕ} (R : Fin n → Fin m → ℚ)
    (P : Fin n → Fin K → ℚ) (Q : Fin m → Fin K → ℚ) (steps : ℕ) (alpha beta : ℚ) :
    Svd.factor R P Q steps alpha beta = Svd.factorSpec R P Q steps alpha beta := by
  unfold Svd.factor Svd.factorSpec
  rw [Svd.factorLoop_eq_spec]

/-! ## SimilarityEngine (`shared_preferences`, `shared_critics`,
`euclidean_distance`, `pearson_correlation`)

The `prefs` string argument of the metrics is the closed choice between
`'critics'` and `'movies'` (any other string raises; no claim exercises
that branch).  The shared-preference set is a dict keyed by the shared
movie (resp. critic), exactly as the source builds it; Python iterates the
intermediate `set` intersection in an unspecified order, so we fix the
iteration order of the first operand's dict — every value the metrics
derive from the dict is order-independent. -/

/-- The `prefs` argument: `'critics'` or `'movies'`. -/
inductive Pref where
  | critics : Pref
  | movies : Pref
  deriving DecidableEq, Repr

/-- The `metric` argument: the two keys of the `metrics` dispatch dict. -/
inductive Metric where
  | euclidean : Metric
  | pearson : Metric
  deriving DecidableEq, Repr

/-- The dict built by `shared_preferences` from the two inner review
dicts: `movie_id → (rating of a, rating of b)` over the intersection of
the rated movies. -/
def sharedDict (ra rb : RMap) : List (ℕ × ℚ × ℚ) :=
  ra.filterMap (fun p => (alookup rb p.1).map (fun y => (p.1, p.2, y)))

/-- `shared_preferences(critic_a, critic_b)`: raises `KeyError` when
either critic is missing from `self.reviews`. -/
def sharedPreferences (st : Store) (a b : ℕ) : Except PyErr (List (ℕ × ℚ × ℚ)) :=
  match alookup st.reviews a with
  | none => .error .keyError
  | some ra =>
    match alookup st.reviews b with
    | none => .error .keyError
    | some rb => .ok (sharedDict ra rb)

/-- The dict built by `shared_critics` from the store:
`user_id → (rating of movie_a, rating of movie_b)` over the critics who
rated both movies, in `self.reviews` iteration order. -/
def sharedCriticsDict (rvs : Reviews) (ma mb : ℕ) : List (ℕ × ℚ × ℚ) :=
  rvs.filterMap (fun p =>
    match alookup p.2 ma, alookup p.2 mb with
    | some x, some y => some (p.1, x, y)
    | _, _ => none)

/-- `shared_critics(movie_a, movie_b)`: raises `KeyError` when either
movie is missing from `self.movies`. -/
def sharedCritics (st : Store) (ma mb : ℕ) : Except PyErr (List (ℕ × ℚ × ℚ)) :=
  if ma ∈ st.movies then
    if mb ∈ st.movies then .ok (sharedCriticsDict st.reviews ma mb)
    else .error .keyError
  else .error .keyError

/-- The `prefs == 'critics' / 'movies'` dispatch shared by both metrics. -/
def prefsOf (st : Store) (a b : ℕ) : Pref → Except PyErr (List (ℕ × ℚ × ℚ))
  | .critics => sharedPreferences st a b
  | .movies => sharedCritics st a b

/-- `preferences.values()`: the rating pairs of a shared-preference dict. -/
def vals (l : List (ℕ × ℚ × ℚ)) : List (ℚ × ℚ) := l.map Prod.snd

/-- `sum([pow(a - b, 2) for a, b in preferences.values()])`. -/
def sumSq (l : List (ℚ × ℚ)) : ℚ := (l.map (fun p => (p.1 - p.2) ^ 2)).sum

/-- The value `euclidean_distance` computes from the shared dict:
`0` when it is empty, else `1 / (1 + sqrt(sum_of_squares))`. -/
noncomputable def euclidOfList (l : List (ℚ × ℚ)) : ℝ :=
  if l.length = 0 then 0 else 1 / (1 + Real.sqrt (sumSq l : ℝ))

/-- `euclidean_distance(a, b, prefs)`. -/
noncomputable def euclideanDistance (st : Store) (a b : ℕ) (prefs : Pref) :
    Except PyErr ℝ :=
  (prefsOf st a b prefs).map (fun l => euclidOfList (vals l))

/-- `sum_a` of the `pearson_correlation` accumulation loop. -/
def sumA (l : List (ℚ × ℚ)) : ℚ := (l.map Prod.fst).sum

/-- `sum_b`. -/
def sumB (l : List (ℚ × ℚ)) : ℚ := (l.map Prod.snd).sum

/-- `sum_square_a`. -/
def sumSqA (l : List (ℚ × ℚ)) : ℚ := (l.map (fun p => p.1 ^ 2)).sum

/-- `sum_square_b`. -/
def sumSqB (l : List (ℚ × ℚ)) : ℚ := (l.map (fun p => p.2 ^ 2)).sum

/-- `sum_product`. -/
def sumAB (l : List (ℚ × ℚ)) : ℚ := (l.map (fun p => p.1 * p.2)).sum

/-- `numerator = (sum_product * length) - (sum_a * sum_b)`. -/
def pNum (l : List (ℚ × ℚ)) : ℚ := sumAB l * l.length - sumA l * sumB l

/-- The product under the square root of the denominator:
`((sum_square_a * length) - pow(sum_a, 2)) * ((sum_square_b * length) - pow(sum_b, 2))`. -/
def pDen (l : List (ℚ × ℚ)) : ℚ :=
  (sumSqA l * l.length - sumA l ^ 2) * (sumSqB l * l.length - sumB l ^ 2)

/-- The value `pearson_correlation` computes from the shared dict: `0`
when it is empty, `0` when `sqrt(pDen) == 0`, else
`abs(numerator / denominator)`. -/
noncomputable def pearsonOfList (l : List (ℚ × ℚ)) : ℝ :=
  if l.length = 0 then 0
  else if Real.sqrt (pDen l : ℝ) = 0 then 0
  else |(pNum l : ℝ) / Real.sqrt (pDen l : ℝ)|

/-- `pearson_correlation(a, b, prefs)`. -/
noncomputable def pearsonCorrelation (st : Store) (a b : ℕ) (prefs : Pref) :
    Except PyErr ℝ :=
  (prefsOf st a b prefs).map (fun l => pearsonOfList (vals l))

/-- The `metrics` dispatch dict of `similar_critics` / `similar_items`. -/
noncomputable def metricFn : Metric → Store → ℕ → ℕ → Pref → Except PyErr ℝ
  | .euclidean => euclideanDistance
  | .pearson => pearsonCorrelation

theorem sumSq_nonneg (l : List (ℚ × ℚ)) : 0 ≤ sumSq l := by
  apply List.sum_nonneg
  intro x hx
  simp only [List.mem_map] at hx
  obtain ⟨p, _, rfl⟩ := hx
  positivity

/-- **C2.** For every pair of entities present in the store and every
dimension (so that the shared-preference dict is computed at all),
`euclidean_distance` returns `0` when the shared preference set is empty
and otherwise `1 / (1 + sqrt (sum of squared rating differences))`, a
value in `(0, 1]`.  (The claim's concrete scenario is the witness
`claim_C2_witness`.) -/
theorem claim_C2_euclidean_value (st : Store) (a b : ℕ) (prefs : Pref)
    (l : List (ℕ × ℚ × ℚ)) (h : prefsOf st a b prefs = .ok l) :
    euclideanDistance st a b prefs = .ok (euclidOfList (vals l)) ∧
    (l = [] → euclidOfList (vals l) = 0) ∧
    (l ≠ [] →
      euclidOfList (vals l) = 1 / (1 + Real.sqrt (sumSq (vals l) : ℝ)) ∧
      0 < euclidOfList (vals l) ∧ euclidOfList (vals l) ≤ 1) := by
  have hs : (0 : ℝ) ≤ Real.sqrt (sumSq (vals l) : ℝ) := Real.sqrt_nonneg _
  refine ⟨by simp [euclideanDistance, h, Except.map], ?_, ?_⟩
  · intro hl
    subst hl
    simp [euclidOfList, vals]
  · intro hl
    have hlen : (vals l).length ≠ 0 := by simpa [vals] using hl
    constructor
    · simp [euclidOfList, hlen]
    constructor
    · rw [euclidOfList, if_neg hlen]
      positivity
    · rw [euclidOfList, if_neg hlen]
      rw [div_le_one (by linarith)]
      linarith

/-- The claim's example scenario: users `{1,2,3}`, items `{10,20,30}`,
ratings `(1,10,5), (1,20,3), (2,10,4), (2,20,2), (3,20,5), (3,30,4)`. -/
def exampleStore : Store :=
  ⟨[10, 20, 30],
   [(1, [(10, 5), (20, 3)]), (2, [(10, 4), (20, 2)]), (3, [(20, 5), (30, 4)])]⟩

theorem claim_C2_witness :
    euclideanDistance exampleStore 1 2 .critics = .ok (1 / (1 + Real.sqrt 2)) := by
  have h : prefsOf exampleStore 1 2 .critics = .ok [(10, 5, 4), (20, 3, 2)] := rfl
  obtain ⟨h1, _, h3⟩ := claim_C2_euclidean_value exampleStore 1 2 .critics _ h
  rw [h1, (h3 (by decide)).1]
  have h2 : (sumSq (vals [(10, 5, 4), (20, 3, 2)]) : ℝ) = 2 := by
    norm_num [sumSq, vals]
  rw [h2]

/-- **C5 (code bug).** The claim says `average_rating` fails with
`NoRatings` rather than dividing by zero when the item has no ratings;
the source computes `sum(reviews) / float(len(reviews))` unguarded, so on
a store whose movie `10` has no reviews the call dies with
`ZeroDivisionError`, not the specified `NoRatings`. -/
theorem claim_C5_average_divides_by_zero :
    averageRating ⟨[10], []⟩ 10 = .error .zeroDivisionError ∧
    Except.error PyErr.zeroDivisionError ≠
      (Except.error PyErr.noRatings : Except PyErr (ℚ × ℕ)) := by
  exact ⟨rfl, by simp⟩

/-- **C8.** For every item in the store and caller-supplied priors `c`,
`m` (with a nonzero posterior count, which every genuine prior `c > 0`
gives), `bayesian_average` returns `(c*m + Σ ratings) / (c + count)`. -/
theorem claim_C8_bayesian_average (st : Store) (c m : ℚ) (movie : ℕ)
    (h : c + ((ratingsFor st movie).length : ℚ) ≠ 0) :
    bayesianAverage st c m movie =
      .ok ((c * m + (ratingsFor st movie).sum) /
        (c + ((ratingsFor st movie).length : ℚ))) := by
  simp [bayesianAverage, h]

theorem claim_C8_witness :
    bayesianAverage ⟨[10], [(1, [(10, 5)])]⟩ 59 3 10 = .ok (182 / 60) := by
  have hr : ratingsFor ⟨[10], [(1, [(10, 5)])]⟩ 10 = [5] := rfl
  have h :=
    claim_C8_bayesian_average ⟨[10], [(1, [(10, 5)])]⟩ 59 3 10 (by rw [hr]; norm_num)
  rw [h, hr]
  norm_num

/-! ## NeighborPredictor: ranking (`similar_critics`, `similar_items`) -/

/-- Sequencing of a fallible map over a list, propagating the first
raised exception — the `for` loops of `similar_critics`/`similar_items`,
whose bodies call a metric that can raise. -/
def exceptMap {α β : Type} (f : α → Except PyErr β) : List α → Except PyErr (List β)
  | [] => .ok []
  | x :: xs =>
    match f x with
    | .error e => .error e
    | .ok y =>
      match exceptMap f xs with
      | .error e => .error e
      | .ok ys => .ok (y :: ys)

/-- `similar_critics(user, metric)` (the `n=None` full dict):
raises `KeyError("Unknown user")` when `user` is not in `self.reviews`,
else maps every other critic to `distance(user, critic)`. -/
noncomputable def similarCritics (st : Store) (user : ℕ) (metric : Metric) :
    Except PyErr (List (ℕ × ℝ)) :=
  match alookup st.reviews user with
  | none => .error .keyError
  | some _ =>
    exceptMap (fun c => (metricFn metric st user c .critics).map (fun d => (c, d)))
      ((akeys st.reviews).filter (fun c => c ≠ user))

/-- `similar_items(movie, metric)` (the `n=None` full dict).  The source
guard is `if movie not in self.reviews:` — it consults the *user* index
and raises `KeyError("Unknown movie")` from it; this slip is preserved
here.  Otherwise maps every other movie to
`distance(item, movie, prefs='movies')`. -/
noncomputable def similarItems (st : Store) (movie : ℕ) (metric : Metric) :
    Except PyErr (List (ℕ × ℝ)) :=
  match alookup st.reviews movie with
  | none => .error .keyError
  | some _ =>
    exceptMap (fun item => (metricFn metric st item movie .movies).map (fun d => (item, d)))
      (st.movies.filter (fun item => item ≠ movie))

/-- **C3 (code bug).** The claim says `similar_items` raises
`UnknownEntity` iff the queried item is absent from the item index — in
particular never for a known item.  But the source tests
`movie not in self.reviews`, so on a store with movie `10` (rated by user
`1`) the known item `10` is rejected with the `KeyError` that claims an
unknown movie, because `10` is not a *user* id. -/
theorem claim_C3_similar_items_rejects_known_item :
    10 ∈ (⟨[10], [(1, [(10, 5)])]⟩ : Store).movies ∧
    similarItems ⟨[10], [(1, [(10, 5)])]⟩ 10 .euclidean = .error .keyError := by
  exact ⟨by decide, rfl⟩

/-! ### Algebraic facts about the Pearson sums (for C7 and C9) -/

theorem sumA_cons (p : ℚ × ℚ) (l : List (ℚ × ℚ)) : sumA (p :: l) = p.1 + sumA l := by
  simp [sumA]

theorem sumB_cons (p : ℚ × ℚ) (l : List (ℚ × ℚ)) : sumB (p :: l) = p.2 + sumB l := by
  simp [sumB]

theorem sumSqA_cons (p : ℚ × ℚ) (l : List (ℚ × ℚ)) :
    sumSqA (p :: l) = p.1 ^ 2 + sumSqA l := by
  simp [sumSqA]

theorem sumSqB_cons (p : ℚ × ℚ) (l : List (ℚ × ℚ)) :
    sumSqB (p :: l) = p.2 ^ 2 + sumSqB l := by
  simp [sumSqB]

theorem sumAB_cons (p : ℚ × ℚ) (l : List (ℚ × ℚ)) :
    sumAB (p :: l) = p.1 * p.2 + sumAB l := by
  simp [sumAB]

/-- A list sum is a `Fin`-indexed finite sum (to import finite-sum
inequalities). -/
theorem list_sum_map_eq_fin {α : Type} (g : α → ℚ) (l : List α) :
    (l.map g).sum = ∑ i : Fin l.length, g (l.get i) := by
  conv_lhs => rw [← List.ofFn_get l]
  rw [List.map_ofFn, List.sum_ofFn]
  simp

/-- Cauchy–Schwarz for rating-pair lists. -/
theorem list_cauchy (l : List (ℚ × ℚ)) : (sumAB l) ^ 2 ≤ sumSqA l * sumSqB l := by
  rw [sumAB, sumSqA, sumSqB, list_sum_map_eq_fin, list_sum_map_eq_fin, list_sum_map_eq_fin]
  exact Finset.sum_mul_sq_le_sq_mul_sq Finset.univ
    (fun i => (l.get i).1) (fun i => (l.get i).2)

theorem sum_affine_mul (l : List (ℚ × ℚ)) (s c d : ℚ) :
    (l.map (fun p => (s * p.1 - c) * (s * p.2 - d))).sum
      = s ^ 2 * sumAB l - s * d * sumA l - s * c * sumB l + l.length * (c * d) := by
  induction l with
  | nil => simp [sumAB, sumA, sumB]
  | cons p l ih =>
    simp only [List.map_cons, List.sum_cons, ih, sumAB_cons, sumA_cons, sumB_cons,
      List.length_cons, Nat.cast_succ]
    ring

theorem sum_affine_sqA (l : List (ℚ × ℚ)) (s c : ℚ) :
    (l.map (fun p => (s * p.1 - c) ^ 2)).sum
      = s ^ 2 * sumSqA l - 2 * s * c * sumA l + l.length * c ^ 2 := by
  induction l with
  | nil => simp [sumSqA, sumA]
  | cons p l ih =>
    simp only [List.map_cons, List.sum_cons, ih, sumSqA_cons, sumA_cons,
      List.length_cons, Nat.cast_succ]
    ring

theorem sum_affine_sqB (l : List (ℚ × ℚ)) (s c : ℚ) :
    (l.map (fun p => (s * p.2 - c) ^ 2)).sum
      = s ^ 2 * sumSqB l - 2 * s * c * sumB l + l.length * c ^ 2 := by
  induction l with
  | nil => simp [sumSqB, sumB]
  | cons p l ih =>
    simp only [List.map_cons, List.sum_cons, ih, sumSqB_cons, sumB_cons,
      List.length_cons, Nat.cast_succ]
    ring

/-- `(sum_square_a*len - sum_a²) ≥ 0`: the first variance factor of the
Pearson denominator is nonnegative. -/
theorem denA_nonneg (l : List (ℚ × ℚ)) : 0 ≤ sumSqA l * l.length - sumA l ^ 2 := by
  rcases Nat.eq_zero_or_pos l.length with h0 | hpos
  · obtain rfl : l = [] := List.length_eq_zero.mp h0
    simp [sumSqA, sumA]
  · have hn : (0 : ℚ) < l.length := by exact_mod_cast hpos
    have hsq : 0 ≤ (l.map (fun p => ((l.length : ℚ) * p.1 - sumA l) ^ 2)).sum :=
      List.sum_nonneg (by
        intro x hx
        simp only [List.mem_map] at hx
        obtain ⟨p, _, rfl⟩ := hx
        positivity)
    rw [sum_affine_sqA] at hsq
    nlinarith [hsq, hn]

theorem denB_nonneg (l : List (ℚ × ℚ)) : 0 ≤ sumSqB l * l.length - sumB l ^ 2 := by
  rcases Nat.eq_zero_or_pos l.length with h0 | hpos
  · obtain rfl : l = [] := List.length_eq_zero.mp h0
    simp [sumSqB, sumB]
  · have hn : (0 : ℚ) < l.length := by exact_mod_cast hpos
    have hsq : 0 ≤ (l.map (fun p => ((l.length : ℚ) * p.2 - sumB l) ^ 2)).sum :=
      List.sum_nonneg (by
        intro x hx
        simp only [List.mem_map] at hx
        obtain ⟨p, _, rfl⟩ := hx
        positivity)
    rw [sum_affine_sqB] at hsq
    nlinarith [hsq, hn]

theorem pDen_nonneg (l : List (ℚ × ℚ)) : 0 ≤ pDen l :=
  mul_nonneg (denA_nonneg l) (denB_nonneg l)

/-- The Cauchy–Schwarz bound behind `|pearson| ≤ 1`:
`numerator² ≤ pDen`. -/
theorem pNum_sq_le_pDen (l : List (ℚ × ℚ)) : pNum l ^ 2 ≤ pDen l := by
  rcases Nat.eq_zero_or_pos l.length with h0 | hpos
  · obtain rfl : l = [] := List.length_eq_zero.mp h0
    simp [pNum, pDen, sumA, sumB, sumAB, sumSqA, sumSqB]
  · have hn : (0 : ℚ) < l.length := by exact_mod_cast hpos
    have hcs := list_cauchy (l.map (fun p =>
      ((l.length : ℚ) * p.1 - sumA l, (l.length : ℚ) * p.2 - sumB l)))
    rw [sumAB, sumSqA, sumSqB, List.map_map, List.map_map, List.map_map] at hcs
    have e1 : ((l.map ((fun p : ℚ × ℚ => p.1 * p.2) ∘ fun p : ℚ × ℚ =>
        ((l.length : ℚ) * p.1 - sumA l, (l.length : ℚ) * p.2 - sumB l))).sum)
        = (l.length : ℚ) * pNum l := by
      rw [show ((fun p : ℚ × ℚ => p.1 * p.2) ∘ fun p : ℚ × ℚ =>
        ((l.length : ℚ) * p.1 - sumA l, (l.length : ℚ) * p.2 - sumB l))
          = fun p : ℚ × ℚ => ((l.length : ℚ) * p.1 - sumA l)
              * ((l.length : ℚ) * p.2 - sumB l) from rfl]
      rw [sum_affine_mul, pNum]
      ring
    have e2 : ((l.map ((fun p : ℚ × ℚ => p.1 ^ 2) ∘ fun p : ℚ × ℚ =>
        ((l.length : ℚ) * p.1 - sumA l, (l.length : ℚ) * p.2 - sumB l))).sum)
        = (l.length : ℚ) * (sumSqA l * l.length - sumA l ^ 2) := by
      rw [show ((fun p : ℚ × ℚ => p.1 ^ 2) ∘ fun p : ℚ × ℚ =>
        ((l.length : ℚ) * p.1 - sumA l, (l.length : ℚ) * p.2 - sumB l))
          = fun p : ℚ × ℚ => ((l.length : ℚ) * p.1 - sumA l) ^ 2 from rfl]
      rw [sum_affine_sqA]
      ring
    have e3 : ((l.map ((fun p : ℚ × ℚ => p.2 ^ 2) ∘ fun p : ℚ × ℚ =>
        ((l.length : ℚ) * p.1 - sumA l, (l.length : ℚ) * p.2 - sumB l))).sum)
        = (l.length : ℚ) * (sumSqB l * l.length - sumB l ^ 2) := by
      rw [show ((fun p : ℚ × ℚ => p.2 ^ 2) ∘ fun p : ℚ × ℚ =>
        ((l.length : ℚ) * p.1 - sumA l, (l.length : ℚ) * p.2 - sumB l))
          = fun p : ℚ × ℚ => ((l.length : ℚ) * p.2 - sumB l) ^ 2 from rfl]
      rw [sum_affine_sqB]
      ring
    rw [e1, e2, e3] at hcs
    have key : (l.length : ℚ) ^ 2 * pNum l ^ 2
        ≤ (l.length : ℚ) ^ 2 * pDen l := by
      calc (l.length : ℚ) ^ 2 * pNum l ^ 2 = ((l.length : ℚ) * pNum l) ^ 2 := by ring
        _ ≤ ((l.length : ℚ) * (sumSqA l * l.length - sumA l ^ 2))
              * ((l.length : ℚ) * (sumSqB l * l.length - sumB l ^ 2)) := hcs
        _ = (l.length : ℚ) ^ 2 * pDen l := by rw [pDen]; ring
    exact le_of_mul_le_mul_left key (by positivity)

/-- The textbook Pearson product-moment correlation coefficient of the
rating pairs: covariance over the product of standard deviations, with
the means subtracted pointwise. -/
noncomputable def ppmc (l : List (ℚ × ℚ)) : ℝ :=
  (l.map (fun p => ((p.1 : ℝ) - (sumA l : ℝ) / l.length)
    * ((p.2 : ℝ) - (sumB l : ℝ) / l.length))).sum /
  Real.sqrt ((l.map (fun p => ((p.1 : ℝ) - (sumA l : ℝ) / l.length) ^ 2)).sum *
    (l.map (fun p => ((p.2 : ℝ) - (sumB l : ℝ) / l.length) ^ 2)).sum)

theorem sum_centered_mul_real (l : List (ℚ × ℚ)) (c d : ℝ) :
    (l.map (fun p => ((p.1 : ℝ) - c) * ((p.2 : ℝ) - d))).sum
      = (sumAB l : ℝ) - d * (sumA l : ℝ) - c * (sumB l : ℝ) + l.length * (c * d) := by
  induction l with
  | nil => simp [sumAB, sumA, sumB]
  | cons p l ih =>
    simp only [List.map_cons, List.sum_cons, ih, sumAB_cons, sumA_cons, sumB_cons,
      List.length_cons, Nat.cast_succ]
    push_cast
    ring

theorem sum_centered_sqA_real (l : List (ℚ × ℚ)) (c : ℝ) :
    (l.map (fun p => ((p.1 : ℝ) - c) ^ 2)).sum
      = (sumSqA l : ℝ) - 2 * c * (sumA l : ℝ) + l.length * c ^ 2 := by
  induction l with
  | nil => simp [sumSqA, sumA]
  | cons p l ih =>
    simp only [List.map_cons, List.sum_cons, ih, sumSqA_cons, sumA_cons,
      List.length_cons, Nat.cast_succ]
    push_cast
    ring

theorem sum_centered_sqB_real (l : List (ℚ × ℚ)) (c : ℝ) :
    (l.map (fun p => ((p.2 : ℝ) - c) ^ 2)).sum
      = (sumSqB l : ℝ) - 2 * c * (sumB l : ℝ) + l.length * c ^ 2 := by
  induction l with
  | nil => simp [sumSqB, sumB]
  | cons p l ih =>
    simp only [List.map_cons, List.sum_cons, ih, sumSqB_cons, sumB_cons,
      List.length_cons, Nat.cast_succ]
    push_cast
    ring

/-- The computational formula of `pearson_correlation` equals the absolute
value of the textbook PPMC. -/
theorem pearsonOfList_eq_abs_ppmc (l : List (ℚ × ℚ)) :
    pearsonOfList l = |ppmc l| := by
  rcases Nat.eq_zero_or_pos l.length with h0 | hpos
  · obtain rfl : l = [] := List.length_eq_zero.mp h0
    simp [pearsonOfList, ppmc]
  · have hlen : l.length ≠ 0 := Nat.pos_iff_ne_zero.mp hpos
    have hN : (0 : ℝ) < (l.length : ℝ) := by exact_mod_cast hpos
    have hNne : (l.length : ℝ) ≠ 0 := ne_of_gt hN
    have hcov : (l.map (fun p => ((p.1 : ℝ) - (sumA l : ℝ) / l.length)
        * ((p.2 : ℝ) - (sumB l : ℝ) / l.length))).sum = (pNum l : ℝ) / l.length := by
      rw [sum_centered_mul_real, pNum]
      push_cast
      field_simp
      ring
    have hva : (l.map (fun p => ((p.1 : ℝ) - (sumA l : ℝ) / l.length) ^ 2)).sum
        = ((sumSqA l * l.length - sumA l ^ 2 : ℚ) : ℝ) / l.length := by
      rw [sum_centered_sqA_real]
      push_cast
      field_simp
      ring
    have hvb : (l.map (fun p => ((p.2 : ℝ) - (sumB l : ℝ) / l.length) ^ 2)).sum
        = ((sumSqB l * l.length - sumB l ^ 2 : ℚ) : ℝ) / l.length := by
      rw [sum_centered_sqB_real]
      push_cast
      field_simp
      ring
    have hprod : ((l.map (fun p => ((p.1 : ℝ) - (sumA l : ℝ) / l.length) ^ 2)).sum *
        (l.map (fun p => ((p.2 : ℝ) - (sumB l : ℝ) / l.length) ^ 2)).sum)
        = (pDen l : ℝ) * (1 / l.length) ^ 2 := by
      rw [hva, hvb, pDen, div_mul_div_comm]
      push_cast
      ring
    have hsqrt : Real.sqrt ((l.map (fun p => ((p.1 : ℝ) - (sumA l : ℝ) / l.length) ^ 2)).sum *
        (l.map (fun p => ((p.2 : ℝ) - (sumB l : ℝ) / l.length) ^ 2)).sum)
        = Real.sqrt (pDen l : ℝ) / l.length := by
      rw [hprod, Real.sqrt_mul (by exact_mod_cast pDen_nonneg l),
        Real.sqrt_sq (by positivity)]
      ring
    rw [ppmc, hcov, hsqrt, pearsonOfList, if_neg hlen]
    by_cases hz : Real.sqrt (pDen l : ℝ) = 0
    · rw [if_pos hz, hz]
      simp
    · rw [if_neg hz]
      have hq : ((pNum l : ℝ) / l.length) / (Real.sqrt (pDen l : ℝ) / l.length)
          = (pNum l : ℝ) / Real.sqrt (pDen l : ℝ) := by
        field_simp
      rw [hq]

theorem pearsonOfList_nonneg (l : List (ℚ × ℚ)) : 0 ≤ pearsonOfList l := by
  unfold pearsonOfList
  split
  · exact le_refl 0
  split
  · exact le_refl 0
  · exact abs_nonneg _

theorem pearsonOfList_le_one (l : List (ℚ × ℚ)) : pearsonOfList l ≤ 1 := by
  unfold pearsonOfList
  split
  · exact zero_le_one
  split
  · exact zero_le_one
  · next hz =>
    have hpos : 0 < Real.sqrt (pDen l : ℝ) :=
      lt_of_le_of_ne (Real.sqrt_nonneg _) (Ne.symm hz)
    rw [abs_div, abs_of_pos hpos, div_le_one hpos]
    have hsq : ((pNum l : ℝ)) ^ 2 ≤ (pDen l : ℝ) := by exact_mod_cast pNum_sq_le_pDen l
    calc |(pNum l : ℝ)| = Real.sqrt ((pNum l : ℝ) ^ 2) := (Real.sqrt_sq_eq_abs _).symm
      _ ≤ Real.sqrt (pDen l : ℝ) := Real.sqrt_le_sqrt hsq

/-- **C7.** For every pair of entities present in the store and every
dimension (so that the shared-preference dict is computed at all),
`pearson_correlation` returns the absolute value of the Pearson
product-moment correlation coefficient over the shared preference set — a
real in `[0, 1]` — and returns `0` both when the shared set is empty and
when the product of the two variance terms is exactly `0`. -/
theorem claim_C7_pearson_value (st : Store) (a b : ℕ) (prefs : Pref)
    (l : List (ℕ × ℚ × ℚ)) (h : prefsOf st a b prefs = .ok l) :
    pearsonCorrelation st a b prefs = .ok (pearsonOfList (vals l)) ∧
    pearsonOfList (vals l) = |ppmc (vals l)| ∧
    0 ≤ pearsonOfList (vals l) ∧ pearsonOfList (vals l) ≤ 1 ∧
    (l = [] → pearsonOfList (vals l) = 0) ∧
    (pDen (vals l) = 0 → pearsonOfList (vals l) = 0) := by
  refine ⟨by simp [pearsonCorrelation, h, Except.map],
    pearsonOfList_eq_abs_ppmc (vals l), pearsonOfList_nonneg (vals l),
    pearsonOfList_le_one (vals l), ?_, ?_⟩
  · intro hl
    subst hl
    simp [pearsonOfList, vals]
  · intro hden
    unfold pearsonOfList
    split
    · rfl
    split
    · rfl
    · next hz =>
      exfalso
      apply hz
      rw [hden]
      simp

theorem claim_C7_witness :
    pearsonCorrelation exampleStore 1 2 .critics = .ok 1 := by
  have h : prefsOf exampleStore 1 2 .critics = .ok [(10, 5, 4), (20, 3, 2)] := rfl
  obtain ⟨h1, -, -, -, -, -⟩ := claim_C7_pearson_value exampleStore 1 2 .critics _ h
  rw [h1]
  have hv : vals [(10, 5, 4), (20, 3, 2)] = [(5, 4), (3, 2)] := rfl
  rw [hv]
  have hden : (pDen [((5 : ℚ), (4 : ℚ)), (3, 2)] : ℝ) = 16 := by
    norm_num [pDen, sumSqA, sumSqB, sumA, sumB]
  have hnum : (pNum [((5 : ℚ), (4 : ℚ)), (3, 2)] : ℝ) = 4 := by
    norm_num [pNum, sumAB, sumA, sumB]
  have hsqrt : Real.sqrt (pDen [((5 : ℚ), (4 : ℚ)), (3, 2)] : ℝ) = 4 := by
    rw [hden, show (16 : ℝ) = 4 ^ 2 by norm_num, Real.sqrt_sq (by norm_num)]
  rw [pearsonOfList, if_neg (by norm_num), if_neg (by rw [hsqrt]; norm_num), hsqrt, hnum]
  norm_num

/-! ### Symmetry of the metrics (C9) -/

theorem sumSq_swap (l : List (ℚ × ℚ)) : sumSq (l.map Prod.swap) = sumSq l := by
  unfold sumSq
  rw [List.map_map]
  exact congrArg List.sum (List.map_congr_left (fun p _ => by simp [Prod.swap]; ring))

theorem euclidOfList_swap (l : List (ℚ × ℚ)) :
    euclidOfList (l.map Prod.swap) = euclidOfList l := by
  unfold euclidOfList
  rw [List.length_map, sumSq_swap]

theorem euclidOfList_perm {l1 l2 : List (ℚ × ℚ)} (h : l1.Perm l2) :
    euclidOfList l1 = euclidOfList l2 := by
  unfold euclidOfList sumSq
  rw [h.length_eq, (h.map _).sum_eq]

theorem sumA_swap (l : List (ℚ × ℚ)) : sumA (l.map Prod.swap) = sumB l := by
  unfold sumA sumB
  rw [List.map_map]
  rfl

theorem sumB_swap (l : List (ℚ × ℚ)) : sumB (l.map Prod.swap) = sumA l := by
  unfold sumA sumB
  rw [List.map_map]
  rfl

theorem sumSqA_swap (l : List (ℚ × ℚ)) : sumSqA (l.map Prod.swap) = sumSqB l := by
  unfold sumSqA sumSqB
  rw [List.map_map]
  rfl

theorem sumSqB_swap (l : List (ℚ × ℚ)) : sumSqB (l.map Prod.swap) = sumSqA l := by
  unfold sumSqA sumSqB
  rw [List.map_map]
  rfl

theorem sumAB_swap (l : List (ℚ × ℚ)) : sumAB (l.map Prod.swap) = sumAB l := by
  unfold sumAB
  rw [List.map_map]
  exact congrArg List.sum (List.map_congr_left (fun p _ => by simp [Prod.swap]; ring))

theorem pearsonOfList_swap (l : List (ℚ × ℚ)) :
    pearsonOfList (l.map Prod.swap) = pearsonOfList l := by
  unfold pearsonOfList pNum pDen
  rw [List.length_map, sumA_swap, sumB_swap, sumSqA_swap, sumSqB_swap, sumAB_swap,
    mul_comm (sumSqB l * (l.length : ℚ) - sumB l ^ 2),
    mul_comm (sumB l) (sumA l)]

theorem pearsonOfList_perm {l1 l2 : List (ℚ × ℚ)} (h : l1.Perm l2) :
    pearsonOfList l1 = pearsonOfList l2 := by
  unfold pearsonOfList pNum pDen sumA sumB sumSqA sumSqB sumAB
  rw [h.length_eq, (h.map _).sum_eq, (h.map _).sum_eq, (h.map _).sum_eq,
    (h.map _).sum_eq, (h.map _).sum_eq]

/-- Swapping the two rating components of a keyed shared-preference
entry. -/
def kvSwap (t : ℕ × ℚ × ℚ) : ℕ × ℚ × ℚ := (t.1, t.2.2, t.2.1)

theorem kvSwap_involutive : Function.Involutive kvSwap := by
  intro t
  rfl

theorem vals_map_kvSwap (l : List (ℕ × ℚ × ℚ)) :
    vals (l.map kvSwap) = (vals l).map Prod.swap := by
  unfold vals
  rw [List.map_map, List.map_map]
  rfl

theorem mem_sharedDict {ra rb : RMap} (hra : (akeys ra).Nodup) (t : ℕ × ℚ × ℚ) :
    t ∈ sharedDict ra rb ↔ alookup ra t.1 = some t.2.1 ∧ alookup rb t.1 = some t.2.2 := by
  unfold sharedDict
  rw [List.mem_filterMap]
  constructor
  · rintro ⟨p, hp, hfp⟩
    cases hrb : alookup rb p.1 with
    | none => rw [hrb] at hfp; simp at hfp
    | some y =>
      rw [hrb] at hfp
      simp only [Option.map_some'] at hfp
      obtain rfl := Option.some.inj hfp
      exact ⟨alookup_of_mem_of_nodup hra hp, hrb⟩
  · rintro ⟨h1, h2⟩
    refine ⟨(t.1, t.2.1), alookup_mem h1, ?_⟩
    rw [h2]
    rfl

theorem akeys_sharedDict_sublist (ra rb : RMap) :
    (akeys (sharedDict ra rb)).Sublist (akeys ra) := by
  induction ra with
  | nil => simp [sharedDict, akeys]
  | cons p l ih =>
    unfold sharedDict at ih ⊢
    rw [List.filterMap_cons]
    cases alookup rb p.1 with
    | none =>
      simp only [Option.map_none', akeys, List.map_cons]
      exact ih.cons _
    | some y =>
      simp only [Option.map_some', akeys, List.map_cons]
      exact ih.cons₂ _

theorem sharedDict_nodup {ra rb : RMap} (hra : (akeys ra).Nodup) :
    (sharedDict ra rb).Nodup :=
  List.Nodup.of_map Prod.fst ((akeys_sharedDict_sublist ra rb).nodup hra)

theorem sharedDict_symm_perm {ra rb : RMap} (hra : (akeys ra).Nodup)
    (hrb : (akeys rb).Nodup) :
    (sharedDict rb ra).Perm ((sharedDict ra rb).map kvSwap) := by
  apply List.perm_of_nodup_nodup_toFinset_eq (sharedDict_nodup hrb)
    ((sharedDict_nodup hra).map kvSwap_involutive.injective)
  apply Finset.ext
  intro t
  rw [List.mem_toFinset, List.mem_toFinset, mem_sharedDict hrb]
  have hmap : t ∈ (sharedDict ra rb).map kvSwap ↔ kvSwap t ∈ sharedDict ra rb := by
    constructor
    · rintro h
      obtain ⟨s, hs, rfl⟩ := List.mem_map.mp h
      rwa [kvSwap_involutive s]
    · intro h
      exact List.mem_map.mpr ⟨kvSwap t, h, kvSwap_involutive t⟩
  rw [hmap, mem_sharedDict hra]
  exact ⟨fun ⟨x, y⟩ => ⟨y, x⟩, fun ⟨x, y⟩ => ⟨y, x⟩⟩

theorem sharedCriticsDict_symm (rvs : Reviews) (ma mb : ℕ) :
    sharedCriticsDict rvs mb ma = (sharedCriticsDict rvs ma mb).map kvSwap := by
  induction rvs with
  | nil => rfl
  | cons p l ih =>
    unfold sharedCriticsDict at ih ⊢
    rw [List.filterMap_cons, List.filterMap_cons]
    cases h1 : alookup p.2 ma <;> cases h2 : alookup p.2 mb <;>
      simp [h1, h2, ih, kvSwap]

/-- Presence of an entity in the index that the chosen dimension compares
over (users for `'critics'`, movies for `'movies'`). -/
def knownEntity (st : Store) (prefs : Pref) (x : ℕ) : Prop :=
  match prefs with
  | .critics => x ∈ akeys st.reviews
  | .movies => x ∈ st.movies

instance (st : Store) (prefs : Pref) (x : ℕ) : Decidable (knownEntity st prefs x) := by
  unfold knownEntity
  cases prefs <;> infer_instance

/-- **C9.** For every pair of distinct entities present in the store and
every dimension, both similarity metrics are symmetric in their two
entity arguments. -/
theorem claim_C9_metric_symmetry (st : Store) (a b : ℕ) (prefs : Pref)
    (hwf : st.WF) (hab : a ≠ b)
    (ha : knownEntity st prefs a) (hb : knownEntity st prefs b) :
    euclideanDistance st a b prefs = euclideanDistance st b a prefs ∧
    pearsonCorrelation st a b prefs = pearsonCorrelation st b a prefs := by
  cases prefs with
  | critics =>
    obtain ⟨ra, hra⟩ := Option.isSome_iff_exists.mp ((alookup_isSome_iff _ _).mpr ha)
    obtain ⟨rb, hrb⟩ := Option.isSome_iff_exists.mp ((alookup_isSome_iff _ _).mpr hb)
    have hnra : (akeys ra).Nodup := hwf.2.1 _ (alookup_mem hra)
    have hnrb : (akeys rb).Nodup := hwf.2.1 _ (alookup_mem hrb)
    have hperm : (vals (sharedDict rb ra)).Perm ((vals (sharedDict ra rb)).map Prod.swap) := by
      have h := (sharedDict_symm_perm hnra hnrb).map Prod.snd
      rwa [show ((sharedDict ra rb).map kvSwap).map Prod.snd
        = (vals (sharedDict ra rb)).map Prod.swap from vals_map_kvSwap _] at h
    constructor
    · simp only [euclideanDistance, prefsOf, sharedPreferences, hra, hrb, Except.map]
      rw [euclidOfList_perm hperm, euclidOfList_swap]
    · simp only [pearsonCorrelation, prefsOf, sharedPreferences, hra, hrb, Except.map]
      rw [pearsonOfList_perm hperm, pearsonOfList_swap]
  | movies =>
    have ha' : a ∈ st.movies := ha
    have hb' : b ∈ st.movies := hb
    constructor
    · simp only [euclideanDistance, prefsOf, sharedCritics, ha', hb', if_true, Except.map]
      rw [sharedCriticsDict_symm st.reviews a b, vals_map_kvSwap, euclidOfList_swap]
    · simp only [pearsonCorrelation, prefsOf, sharedCritics, ha', hb', if_true, Except.map]
      rw [sharedCriticsDict_symm st.reviews a b, vals_map_kvSwap, pearsonOfList_swap]

theorem claim_C9_witness :
    euclideanDistance exampleStore 1 2 .critics = euclideanDistance exampleStore 2 1 .critics ∧
    pearsonCorrelation exampleStore 1 2 .critics = pearsonCorrelation exampleStore 2 1 .critics :=
  claim_C9_metric_symmetry exampleStore 1 2 .critics (by decide) (by decide)
    (by decide) (by decide)

/-! ## NeighborPredictor: prediction (`predict_ranking_user_based`,
`predict_ranking_item_based`)

These two loops subscript the `defaultdict` `self.reviews` with keys that
may be absent (`self.reviews[critic]` / `self.reviews[user]`), which
auto-inserts an empty dict; the store is threaded through the loop and
returned next to the predicted value. -/

/-- `self.reviews[key]` on the `defaultdict(dict)`: returns the entry and
the possibly-extended dict (CPython appends the fresh key at the end of
the insertion order). -/
def ddGet (rvs : Reviews) (u : ℕ) : RMap × Reviews :=
  match alookup rvs u with
  | some d => (d, rvs)
  | none => ([], rvs ++ [(u, [])])

/-- The `for critic, similarity in critics.items()` loop of
`predict_ranking_user_based`: accumulates `total`, `sim_sum` and threads
the (possibly auto-extended) reviews index. -/
noncomputable def predictUBGo (movie : ℕ) :
    List (ℕ × ℝ) → ℝ × ℝ × Reviews → ℝ × ℝ × Reviews
  | [], acc => acc
  | p :: cs, acc =>
    let dd := ddGet acc.2.2 p.1
    match alookup dd.1 movie with
    | some r => predictUBGo movie cs (acc.1 + p.2 * (r : ℝ), acc.2.1 + p.2, dd.2)
    | none => predictUBGo movie cs (acc.1, acc.2.1, dd.2)

/-- `predict_ranking_user_based(user, movie, metric, critics)`.  The
Python `critics = critics or self.similar_critics(...)` falls back to
`similar_critics` both when `critics` is `None` and when it is an *empty*
dict (falsy).  Returns the predicted value and the final reviews index. -/
noncomputable def predictRankingUserBased (st : Store) (user movie : ℕ)
    (critics : Option (List (ℕ × ℝ))) (metric : Metric) :
    Except PyErr (ℝ × Reviews) :=
  match (match critics with
         | none => similarCritics st user metric
         | some [] => similarCritics st user metric
         | some cs => .ok cs) with
  | .error e => .error e
  | .ok cs =>
    let r := predictUBGo movie cs (0, 0, st.reviews)
    .ok (if r.2.1 = 0 then 0 else r.1 / r.2.1, r.2.2)

/-- The `for rel_movie, similarity in movies.items()` loop of
`predict_ranking_item_based`: looks up `self.reviews[user]` (a
`defaultdict` access) at every iteration. -/
noncomputable def predictIBGo (user : ℕ) :
    List (ℕ × ℝ) → ℝ × ℝ × Reviews → ℝ × ℝ × Reviews
  | [], acc => acc
  | p :: ms, acc =>
    let dd := ddGet acc.2.2 user
    match alookup dd.1 p.1 with
    | some r => predictIBGo user ms (acc.1 + p.2 * (r : ℝ), acc.2.1 + p.2, dd.2)
    | none => predictIBGo user ms (acc.1, acc.2.1, dd.2)

/-- `predict_ranking_item_based(user, movie, metric)`. -/
noncomputable def predictRankingItemBased (st : Store) (user movie : ℕ)
    (metric : Metric) : Except PyErr (ℝ × Reviews) :=
  match similarItems st movie metric with
  | .error e => .error e
  | .ok ms =>
    let r := predictIBGo user ms (0, 0, st.reviews)
    .ok (if r.2.1 = 0 then 0 else r.1 / r.2.1, r.2.2)

/-- Whether (according to the pre-call index) the critic has rated the
movie: `movie in self.reviews[critic]` without the auto-insert effect. -/
def ratedOf (rvs : Reviews) (movie : ℕ) (p : ℕ × ℝ) : Bool :=
  (alookup ((alookup rvs p.1).getD []) movie).isSome

/-- The critic's rating of the movie (defined when `ratedOf`). -/
def ratingOf (rvs : Reviews) (movie : ℕ) (p : ℕ × ℝ) : ℚ :=
  (alookup ((alookup rvs p.1).getD []) movie).getD 0

/-- The claim's formula for C6: the similarity-weighted average
`Σ(similarity * rating) / Σ similarity` over exactly the critics in the
neighbor set who rated the item, with the `0.0` sentinel when the
similarity sum is zero. -/
noncomputable def weightedAvgSpec (st : Store) (cs : List (ℕ × ℝ)) (movie : ℕ) : ℝ :=
  let rated := cs.filter (ratedOf st.reviews movie)
  let simSum := (rated.map Prod.snd).sum
  if simSum = 0 then 0
  else (rated.map (fun p => p.2 * (ratingOf st.reviews movie p : ℝ))).sum / simSum

theorem alookup_append {α β : Type} [DecidableEq α] (l1 l2 : List (α × β)) (a : α) :
    alookup (l1 ++ l2) a
      = match alookup l1 a with
        | some b => some b
        | none => alookup l2 a := by
  induction l1 with
  | nil => simp [alookup]
  | cons p l ih =>
    by_cases h : p.1 = a <;> simp [alookup, h, ih]

/-- Running the `predict_ranking_user_based` loop over a reviews index
that is the pristine index plus auto-inserted empty entries accumulates
exactly the weighted sums over the critics who rated the movie (judged by
the pristine index), and only ever appends further empty entries — none at
all when every critic in the neighbor set is a known user. -/
theorem predictUBGo_spec (movie : ℕ) :
    ∀ (cs : List (ℕ × ℝ)) (orig ext : Reviews) (t s : ℝ),
      (∀ p ∈ ext, p.2 = ([] : RMap)) →
      ∃ ext2 : Reviews,
        (∀ p ∈ ext2, p.2 = ([] : RMap)) ∧
        ((∀ p ∈ cs, p.1 ∈ akeys orig) → ext2 = ext) ∧
        predictUBGo movie cs (t, s, orig ++ ext)
          = (t + ((cs.filter (ratedOf orig movie)).map
                (fun p => p.2 * (ratingOf orig movie p : ℝ))).sum,
             s + ((cs.filter (ratedOf orig movie)).map Prod.snd).sum,
             orig ++ ext2)
  | [], orig, ext, t, s, hext => ⟨ext, hext, fun _ => rfl, by simp [predictUBGo]⟩
  | p :: cs, orig, ext, t, s, hext => by
    cases hp : alookup orig p.1 with
    | some d =>
      have hdd : ddGet (orig ++ ext) p.1 = (d, orig ++ ext) := by
        unfold ddGet
        rw [alookup_append, hp]
      have hrated : ratedOf orig movie p = (alookup d movie).isSome := by
        unfold ratedOf
        rw [hp]
        rfl
      cases hm : alookup d movie with
      | some r =>
        obtain ⟨ext2, h1, h2, h3⟩ :=
          predictUBGo_spec movie cs orig ext (t + p.2 * (r : ℝ)) (s + p.2) hext
        refine ⟨ext2, h1, fun hpres => h2 (fun q hq => hpres q (List.mem_cons_of_mem _ hq)), ?_⟩
        rw [predictUBGo, hdd]
        simp only [hm]
        rw [h3]
        have hr : ratingOf orig movie p = r := by
          unfold ratingOf
          rw [hp]
          simp [hm]
        rw [List.filter_cons_of_pos (by rw [hrated, hm]; rfl)]
        simp [hr]
        constructor <;> ring
      | none =>
        obtain ⟨ext2, h1, h2, h3⟩ := predictUBGo_spec movie cs orig ext t s hext
        refine ⟨ext2, h1, fun hpres => h2 (fun q hq => hpres q (List.mem_cons_of_mem _ hq)), ?_⟩
        rw [predictUBGo, hdd]
        simp only [hm]
        rw [h3, List.filter_cons_of_neg (by simp [hrated, hm])]
    | none =>
      have hnotin : p.1 ∉ akeys orig := (alookup_eq_none_iff _ _).mp hp
      have hrated : ratedOf orig movie p = false := by
        unfold ratedOf
        rw [hp]
        rfl
      cases he : alookup ext p.1 with
      | some d =>
        have hd0 : d = [] := hext _ (alookup_mem he)
        have hdd : ddGet (orig ++ ext) p.1 = ([], orig ++ ext) := by
          unfold ddGet
          rw [alookup_append, hp, he, hd0]
        obtain ⟨ext2, h1, h2, h3⟩ := predictUBGo_spec movie cs orig ext t s hext
        refine ⟨ext2, h1,
          fun hpres => h2 (fun q hq => hpres q (List.mem_cons_of_mem _ hq)), ?_⟩
        rw [predictUBGo, hdd]
        simp only [show alookup ([] : RMap) movie = none from rfl]
        rw [h3, List.filter_cons_of_neg (by simp [hrated])]
      | none =>
        have hdd : ddGet (orig ++ ext) p.1 = ([], orig ++ (ext ++ [(p.1, [])])) := by
          unfold ddGet
          rw [alookup_append, hp, he, List.append_assoc]
        have hext' : ∀ q ∈ ext ++ [(p.1, [])], q.2 = ([] : RMap) := by
          intro q hq
          rcases List.mem_append.mp hq with h | h
          · exact hext q h
          · rw [List.mem_singleton] at h
            rw [h]
        obtain ⟨ext2, h1, h2, h3⟩ :=
          predictUBGo_spec movie cs orig (ext ++ [(p.1, [])]) t s hext'
        refine ⟨ext2, h1, fun hpres => absurd (hpres p (List.mem_cons_self _ _)) hnotin, ?_⟩
        rw [predictUBGo, hdd]
        simp only [show alookup ([] : RMap) movie = none from rfl]
        rw [h3, List.filter_cons_of_neg (by simp [hrated])]

/-- **C6 (amended).** For every user, item, metric and *nonempty*
caller-supplied neighbor mapping (an absent or empty mapping is replaced
by `similar_critics(user)`), `predict_ranking_user_based` returns the
weighted average `Σ(sim * rating) / Σ sim` over exactly the critics of
the mapping who rated the item, with the `0.0` sentinel when that
similarity sum is zero. -/
theorem claim_C6_predict_user_based (st : Store) (user movie : ℕ) (metric : Metric)
    (cs : List (ℕ × ℝ)) (hcs : cs ≠ []) :
    (predictRankingUserBased st user movie (some cs) metric).map Prod.fst
      = .ok (weightedAvgSpec st cs movie) := by
  obtain ⟨c, tl, rfl⟩ := List.exists_cons_of_ne_nil hcs
  obtain ⟨ext2, -, -, heq⟩ := predictUBGo_spec movie (c :: tl) st.reviews [] 0 0 (by simp)
  rw [List.append_nil] at heq
  unfold predictRankingUserBased
  simp only [heq, weightedAvgSpec, Except.map, zero_add]

/-- The reviews index after a prediction call (unchanged default when the
call raised before touching it). -/
def storeOf : Except PyErr (ℝ × Reviews) → Reviews → Reviews
  | .ok v, _ => v.2
  | .error _, dflt => dflt

theorem exceptMap_mem {α β : Type} {f : α → Except PyErr β} :
    ∀ {xs : List α} {ys : List β}, exceptMap f xs = .ok ys → ∀ y ∈ ys, ∃ x ∈ xs, f x = .ok y
  | [], ys, h => by
    unfold exceptMap at h
    obtain rfl := Except.ok.inj h
    intro y hy
    simp at hy
  | x :: xs, ys, h => by
    unfold exceptMap at h
    cases hfx : f x with
    | error e => rw [hfx] at h; exact absurd h (by simp)
    | ok y0 =>
      rw [hfx] at h
      cases hrest : exceptMap f xs with
      | error e => rw [hrest] at h; exact absurd h (by simp)
      | ok ys0 =>
        rw [hrest] at h
        obtain rfl := Except.ok.inj h
        intro y hy
        rcases List.mem_cons.mp hy with rfl | hy'
        · exact ⟨x, List.mem_cons_self _ _, hfx⟩
        · obtain ⟨x', hx', hfx'⟩ := exceptMap_mem hrest y hy'
          exact ⟨x', List.mem_cons_of_mem _ hx', hfx'⟩

/-- Every critic produced by `similar_critics` is a key of the user
index. -/
theorem similarCritics_keys {st : Store} {user : ℕ} {metric : Metric}
    {l : List (ℕ × ℝ)} (h : similarCritics st user metric = .ok l) :
    ∀ p ∈ l, p.1 ∈ akeys st.reviews := by
  unfold similarCritics at h
  cases hu : alookup st.reviews user with
  | none => rw [hu] at h; exact absurd h (by simp)
  | some d =>
    rw [hu] at h
    intro p hp
    obtain ⟨c, hc, hfc⟩ := exceptMap_mem h p hp
    have hp1 : p.1 = c := by
      cases hm : metricFn metric st user c .critics with
      | error e => rw [hm] at hfc; exact absurd hfc (by simp [Except.map])
      | ok v =>
        rw [hm] at hfc
        simp only [Except.map] at hfc
        obtain rfl := Except.ok.inj hfc
        rfl
    rw [hp1]
    exact List.mem_of_mem_filter hc

/-- The item-based loop never extends the index when the user is known. -/
theorem predictIBGo_pristine (user : ℕ) :
    ∀ (ms : List (ℕ × ℝ)) (rvs : Reviews) (t s : ℝ), (alookup rvs user).isSome →
      (predictIBGo user ms (t, s, rvs)).2.2 = rvs
  | [], rvs, t, s, hu => rfl
  | p :: ms, rvs, t, s, hu => by
    obtain ⟨d, hd⟩ := Option.isSome_iff_exists.mp hu
    have hdd : ddGet rvs user = (d, rvs) := by
      unfold ddGet
      rw [hd]
    rw [predictIBGo, hdd]
    cases hm : alookup d p.1 with
    | some r => exact predictIBGo_pristine user ms rvs _ _ hu
    | none => exact predictIBGo_pristine user ms rvs _ _ hu

/-- The user-based loop never extends the index when every critic of the
resolved neighbor set is known. -/
theorem predictUBGo_pristine (st : Store) (movie : ℕ) (cs : List (ℕ × ℝ))
    (hcs : ∀ p ∈ cs, p.1 ∈ akeys st.reviews) :
    (predictUBGo movie cs (0, 0, st.reviews)).2.2 = st.reviews := by
  obtain ⟨ext2, -, h2, h3⟩ := predictUBGo_spec movie cs st.reviews [] 0 0 (by simp)
  rw [List.append_nil] at h3
  rw [h3, h2 hcs, List.append_nil]

theorem predictUB_storeOf (st : Store) (user movie : ℕ) (metric : Metric)
    (critics : Option (List (ℕ × ℝ)))
    (hc : ∀ cs, critics = some cs → ∀ p ∈ cs, p.1 ∈ akeys st.reviews) :
    storeOf (predictRankingUserBased st user movie critics metric) st.reviews
      = st.reviews := by
  unfold predictRankingUserBased
  rcases critics with - | cs
  · cases hsx : similarCritics st user metric with
    | error e => rfl
    | ok l =>
      simp only [storeOf]
      exact predictUBGo_pristine st movie l (similarCritics_keys hsx)
  · cases cs with
    | nil =>
      cases hsx : similarCritics st user metric with
      | error e => rfl
      | ok l =>
        simp only [storeOf]
        exact predictUBGo_pristine st movie l (similarCritics_keys hsx)
    | cons c tl =>
      simp only [storeOf]
      exact predictUBGo_pristine st movie (c :: tl) (hc _ rfl)

/-- **C4 (amended).** The prediction queries leave the reviews index
unchanged provided every user id they subscript it with is present: a
caller-supplied neighbor mapping whose critics are all known users (or an
omitted one) keeps `predict_ranking_user_based` pure, and a known `user`
keeps `predict_ranking_item_based` pure.  (The defaultdict auto-insert on
an unknown id is the counterexample `claim_C4_counterexample`; all other
core query operations only read the index.) -/
theorem claim_C4_queries_pristine (st : Store) (user movie : ℕ) (metric : Metric)
    (cs : List (ℕ × ℝ))
    (h1 : ∀ p ∈ cs, p.1 ∈ akeys st.reviews)
    (h2 : user ∈ akeys st.reviews) :
    storeOf (predictRankingUserBased st user movie (some cs) metric) st.reviews
      = st.reviews ∧
    storeOf (predictRankingUserBased st user movie none metric) st.reviews
      = st.reviews ∧
    storeOf (predictRankingItemBased st user movie metric) st.reviews
      = st.reviews := by
  refine ⟨predictUB_storeOf st user movie metric (some cs)
      (fun cs' h => by cases h; exact h1),
    predictUB_storeOf st user movie metric none (fun cs' h => by cases h), ?_⟩
  unfold predictRankingItemBased
  cases hsx : similarItems st movie metric with
  | error e => rfl
  | ok ms =>
    simp only [storeOf]
    exact predictIBGo_pristine user ms st.reviews 0 0 ((alookup_isSome_iff _ _).mpr h2)

theorem claim_C4_witness :
    storeOf (predictRankingUserBased exampleStore 1 10 (some [(2, 1)]) .euclidean)
        exampleStore.reviews = exampleStore.reviews ∧
    storeOf (predictRankingUserBased exampleStore 1 10 none .euclidean)
        exampleStore.reviews = exampleStore.reviews ∧
    storeOf (predictRankingItemBased exampleStore 1 10 .euclidean)
        exampleStore.reviews = exampleStore.reviews :=
  claim_C4_queries_pristine exampleStore 1 10 .euclidean [(2, 1)]
    (by intro p hp; rcases List.mem_singleton.mp hp with rfl; decide) (by decide)

/-- The store of the C4 counterexample: users 1 and 2, both rated movie
10. -/
def exStoreC4 : Store := ⟨[10], [(1, [(10, 4)]), (2, [(10, 4)])]⟩

/-- **C4 (counterexample).** `predict_ranking_user_based` called with a
neighbor mapping containing the unknown critic `99` subscripts the
`defaultdict` with `99` and thereby appends an empty entry to the reviews
index: the store after the call differs from the store before it,
refuting the claim that every core query leaves the store unchanged. -/
theorem claim_C4_counterexample :
    storeOf (predictRankingUserBased exStoreC4 1 10 (some [(99, 1)]) .euclidean)
        exStoreC4.reviews ≠ exStoreC4.reviews := by
  have h : predictRankingUserBased exStoreC4 1 10 (some [(99, 1)]) .euclidean
      = .ok (if (0 : ℝ) = 0 then 0 else 0 / 0, exStoreC4.reviews ++ [(99, [])]) := rfl
  rw [h]
  show exStoreC4.reviews ++ [(99, [])] ≠ exStoreC4.reviews
  intro heq
  have hlen := congrArg List.length heq
  simp at hlen

theorem claim_C6_witness :
    (predictRankingUserBased exampleStore 1 10 (some [(2, 1)]) .euclidean).map Prod.fst
      = .ok (weightedAvgSpec exampleStore [(2, 1)] 10) :=
  claim_C6_predict_user_based exampleStore 1 10 .euclidean [(2, 1)] (by simp)

/-- The store of the C6 counterexample: users 1 and 2, both rated movie
10 with the same score (so their euclidean similarity is exactly 1). -/
def exStoreC6 : Store := ⟨[10], [(1, [(10, 4)]), (2, [(10, 4)])]⟩

/-- **C6 (counterexample).** Called with the *empty* neighbor mapping,
`predict_ranking_user_based` does not return the claim's weighted average
over that (empty) neighbor set — the sentinel `0.0` — because Python's
`critics or self.similar_critics(...)` treats the empty dict as falsy and
silently substitutes `similar_critics(user)`: on `exStoreC6` the call
returns `4`, not `0`. -/
theorem claim_C6_counterexample :
    (predictRankingUserBased exStoreC6 1 10 (some []) .euclidean).map Prod.fst
      ≠ .ok (weightedAvgSpec exStoreC6 [] 10) := by
  have h1 : euclidOfList [((4 : ℚ), (4 : ℚ))] = 1 := by
    have hss : sumSq [((4 : ℚ), (4 : ℚ))] = 0 := by norm_num [sumSq]
    rw [euclidOfList, if_neg (by norm_num), hss]
    simp
  have h2 : similarCritics exStoreC6 1 .euclidean
      = .ok [(2, euclidOfList [((4 : ℚ), (4 : ℚ))])] := rfl
  rw [h1] at h2
  have h3 : predictRankingUserBased exStoreC6 1 10 (some []) .euclidean
      = .ok (if (0 : ℝ) + 1 = 0 then 0
             else ((0 : ℝ) + 1 * ((4 : ℚ) : ℝ)) / ((0 : ℝ) + 1), exStoreC6.reviews) := by
    show (match similarCritics exStoreC6 1 .euclidean with
      | Except.error e => (Except.error e : Except PyErr (ℝ × Reviews))
      | Except.ok cs =>
        let r := predictUBGo 10 cs (0, 0, exStoreC6.reviews)
        Except.ok (if r.2.1 = 0 then 0 else r.1 / r.2.1, r.2.2)) = _
    rw [h2]
    rfl
  have h4 : ((0 : ℝ) + 1 * ((4 : ℚ) : ℝ)) / ((0 : ℝ) + 1) = 4 := by norm_num
  have h5 : weightedAvgSpec exStoreC6 [] 10 = 0 := by
    simp [weightedAvgSpec]
  rw [h3, h5, if_neg (by norm_num), h4]
  simp [Except.map]

/-! ## Recommender (`recommender.py`)

A trained `Recommender` keyed by ids: `movies` is the sorted id list,
`reviews` the dense rating matrix (`0` = unrated) and `model` the trained
`P·Qᵀ` scores (arbitrary here — the claims hold for every trained model).
`heapq.nlargest(n, iterable, key)` is modelled by its comparison
behavior: with `n = 0` CPython's heap path builds an empty result and
returns it with *no* comparison; with `n ≥ 1` it orders the pairs by
comparing keys (via `sorted`, `max` or sift comparisons — every element's
key takes part in at least one comparison once the list has two or more
elements), and CPython raises `TypeError` for any `<` between `None` and
anything (including `None` itself).  An insertion sort in the exception
monad reproduces exactly that raising behavior. -/

/-- A loaded-and-trained `Recommender`. -/
structure RecModel where
  movies : List ℕ
  reviews : ℕ → ℕ → ℚ
  model : ℕ → ℕ → ℚ

/-- `predict_ranking(user, movie)`: `None` when the cell is already
rated (`self.reviews[uid, mid] > 0`), else the model score. -/
def predictRanking (r : RecModel) (user movie : ℕ) : Option ℚ :=
  if 0 < r.reviews user movie then none else some (r.model user movie)

/-- Python's `<` on optional floats: `TypeError` whenever either side is
`None`. -/
def pyLt : Option ℚ → Option ℚ → Except PyErr Bool
  | some x, some y => .ok (decide (x < y))
  | _, _ => .error .typeError

theorem pyLt_none_right (o : Option ℚ) : pyLt o none = .error .typeError := by
  cases o <;> rfl

/-- Insert a pair into a key-descending list, comparing keys as Python
does. -/
def insertDesc (x : ℕ × Option ℚ) :
    List (ℕ × Option ℚ) → Except PyErr (List (ℕ × Option ℚ))
  | [] => .ok [x]
  | y :: ys =>
    match pyLt y.2 x.2 with
    | .error e => .error e
    | .ok true => .ok (x :: y :: ys)
    | .ok false =>
      match insertDesc x ys with
      | .error e => .error e
      | .ok zs => .ok (y :: zs)

/-- Key-descending comparison sort in the exception monad. -/
def sortDesc : List (ℕ × Option ℚ) → Except PyErr (List (ℕ × Option ℚ))
  | [] => .ok []
  | x :: xs =>
    match sortDesc xs with
    | .error e => .error e
    | .ok s => insertDesc x s

/-- `top_rated(user, n)`: `heapq.nlargest` over
`[(mid, predict_ranking(user, mid)) for mid in movies]` keyed on the
second component. -/
def topRated (r : RecModel) (user : ℕ) (n : ℕ) :
    Except PyErr (List (ℕ × Option ℚ)) :=
  if n = 0 then .ok []
  else (sortDesc (r.movies.map (fun mid => (mid, predictRanking r user mid)))).map
    (List.take n)

theorem insertDesc_ok_length {x : ℕ × Option ℚ} :
    ∀ {s zs : List (ℕ × Option ℚ)}, insertDesc x s = .ok zs → zs.length = s.length + 1
  | [], zs, h => by
    obtain rfl := Except.ok.inj h
    rfl
  | y :: ys, zs, h => by
    unfold insertDesc at h
    cases hc : pyLt y.2 x.2 with
    | error e => rw [hc] at h; exact absurd h (by simp)
    | ok b =>
      rw [hc] at h
      cases b with
      | true =>
        obtain rfl := Except.ok.inj h
        rfl
      | false =>
        cases hrec : insertDesc x ys with
        | error e => rw [hrec] at h; exact absurd h (by simp)
        | ok zs0 =>
          rw [hrec] at h
          obtain rfl := Except.ok.inj h
          simp [insertDesc_ok_length hrec]

theorem sortDesc_ok_length :
    ∀ {xs s : List (ℕ × Option ℚ)}, sortDesc xs = .ok s → s.length = xs.length
  | [], s, h => by
    obtain rfl := Except.ok.inj h
    rfl
  | x :: xs, s, h => by
    unfold sortDesc at h
    cases hrec : sortDesc xs with
    | error e => rw [hrec] at h; exact absurd h (by simp)
    | ok s0 =>
      rw [hrec] at h
      rw [insertDesc_ok_length h, sortDesc_ok_length hrec]
      rfl

theorem pyLt_none_left (o : Option ℚ) : pyLt none o = .error .typeError := by
  cases o <;> rfl

theorem pyLt_error_typeError {a b : Option ℚ} {e : PyErr} (h : pyLt a b = .error e) :
    e = .typeError := by
  cases a <;> cases b <;> simp [pyLt] at h <;> exact h.symm

theorem insertDesc_error_typeError {x : ℕ × Option ℚ} :
    ∀ {s : List (ℕ × Option ℚ)} {e : PyErr}, insertDesc x s = .error e → e = .typeError
  | [], e, h => absurd h (by simp [insertDesc])
  | y :: ys, e, h => by
    unfold insertDesc at h
    cases hc : pyLt y.2 x.2 with
    | error e0 =>
      rw [hc] at h
      obtain rfl := (Except.error.inj h).symm
      exact pyLt_error_typeError hc
    | ok b =>
      rw [hc] at h
      cases b with
      | true => exact absurd h (by simp)
      | false =>
        cases hrec : insertDesc x ys with
        | error e0 =>
          rw [hrec] at h
          obtain rfl := (Except.error.inj h).symm
          exact insertDesc_error_typeError hrec
        | ok zs => rw [hrec] at h; exact absurd h (by simp)

theorem sortDesc_error_typeError :
    ∀ {xs : List (ℕ × Option ℚ)} {e : PyErr}, sortDesc xs = .error e → e = .typeError
  | [], e, h => absurd h (by simp [sortDesc])
  | x :: xs, e, h => by
    unfold sortDesc at h
    cases hrec : sortDesc xs with
    | error e0 =>
      rw [hrec] at h
      obtain rfl := (Except.error.inj h).symm
      exact sortDesc_error_typeError hrec
    | ok s => rw [hrec] at h; exact insertDesc_error_typeError h

/-- A comparison sort of two or more keyed pairs among which some key is
`None` always raises `TypeError`: the `None` element takes part in at
least one comparison. -/
theorem sortDesc_with_none :
    ∀ {xs : List (ℕ × Option ℚ)}, 2 ≤ xs.length → (∃ p ∈ xs, p.2 = none) →
      sortDesc xs = .error .typeError
  | x :: xs, hlen, ⟨p, hp, hpn⟩ => by
    simp only [List.length_cons] at hlen
    rcases List.mem_cons.mp hp with rfl | hpxs
    · cases hs : sortDesc xs with
      | error e =>
        unfold sortDesc
        rw [hs, sortDesc_error_typeError hs]
      | ok s =>
        have hslen : 1 ≤ s.length := by
          rw [sortDesc_ok_length hs]
          omega
        have hsne : s ≠ [] := by
          intro h
          rw [h] at hslen
          simp at hslen
        obtain ⟨y, ys, rfl⟩ := List.exists_cons_of_ne_nil hsne
        unfold sortDesc
        rw [hs]
        show insertDesc p (y :: ys) = .error .typeError
        unfold insertDesc
        rw [hpn, pyLt_none_right]
    · rcases Nat.lt_or_ge xs.length 2 with hlt | hge
      · have hxs1 : xs.length = 1 := by
          have h1 : 1 ≤ xs.length := List.length_pos.mpr (List.ne_nil_of_mem hpxs)
          omega
        obtain ⟨q, rfl⟩ := List.length_eq_one.mp hxs1
        obtain rfl := List.mem_singleton.mp hpxs
        unfold sortDesc
        rw [show sortDesc [p] = .ok [p] from rfl]
        show insertDesc x [p] = .error .typeError
        unfold insertDesc
        rw [hpn, pyLt_none_left]
      · have hrec := sortDesc_with_none hge ⟨p, hpxs, hpn⟩
        unfold sortDesc
        rw [hrec, sortDesc_error_typeError hrec]

/-- **C10 (amended).** On a trained model, whenever the user has rated at
least one loaded movie, at least two movies are loaded and `n ≥ 1`
(`heapq.nlargest` with `n = 0` short-circuits to `[]` before comparing),
`top_rated` dies with `TypeError`: `predict_ranking` yields the `None`
sentinel for the rated cell and the top-N selection compares it against
the other scores. -/
theorem claim_C10_top_rated_type_error (r : RecModel) (user n : ℕ)
    (hn : 1 ≤ n) (hm : 2 ≤ r.movies.length)
    (hrated : ∃ m ∈ r.movies, 0 < r.reviews user m) :
    topRated r user n = .error .typeError := by
  obtain ⟨m0, hm0, hr⟩ := hrated
  unfold topRated
  rw [if_neg (by omega)]
  have hsort : sortDesc (r.movies.map (fun mid => (mid, predictRanking r user mid)))
      = .error .typeError := by
    apply sortDesc_with_none
    · rw [List.length_map]
      exact hm
    · exact ⟨(m0, predictRanking r user m0), List.mem_map.mpr ⟨m0, hm0, rfl⟩,
        by simp [predictRanking, hr]⟩
  rw [hsort]
  rfl

/-- The trained model of the C10 example: movies 10 and 20, user 1 rated
movie 10. -/
def exRecModel : RecModel :=
  ⟨[10, 20], fun u mv => if u = 1 ∧ mv = 10 then 4 else 0, fun _ _ => 0⟩

theorem claim_C10_witness : topRated exRecModel 1 12 = .error .typeError :=
  claim_C10_top_rated_type_error exRecModel 1 12 (by norm_num) (by norm_num [exRecModel])
    ⟨10, by norm_num [exRecModel], by norm_num [exRecModel]⟩

/-- **C10 (counterexample).** The claim as stated fails for `n = 0`:
`heapq.nlargest(0, ...)` returns `[]` without performing a single key
comparison, so `top_rated(user, 0)` succeeds even though the user has
rated a loaded movie and two movies are loaded. -/
theorem claim_C10_counterexample :
    topRated exRecModel 1 0 = .ok [] ∧
    2 ≤ exRecModel.movies.length ∧
    10 ∈ exRecModel.movies ∧ 0 < exRecModel.reviews 1 10 := by
  refine ⟨rfl, by norm_num [exRecModel], by norm_num [exRecModel], by norm_num [exRecModel]⟩
